import Mathlib

/-!
Verification of the ResearchLikeIAmFive service against its specification.

The definitions below are shallow embeddings of the Python sources:
* `src/api/_rate_limiter.py` — sliding-window rate limiter,
* `src/api/_utils.py` — JSON cleaning, truncation, arXiv URL validation,
* `src/api/app.py` — style prompts, Eminem verse formatter, summarize pipeline,
* `src/backend/security.py` — request-validation allow-list.

Python floats (timestamps) are modelled as rationals, Python strings as
`List Char`, Python exceptions as `Except`-style sum types.
-/

set_option maxRecDepth 8000

namespace RLIF

attribute [local semireducible] Rat.add Rat.sub

/-! ## Rate limiter (src/api/_rate_limiter.py)

`is_allowed` acts on the per-client entry of `_rate_limit_store`
(`client_data['requests']`, a list of timestamps; a missing client is the
empty list, matching the lazy initialisation at lines 43–47).
-/

structure RateLimiter where
  requests_per_minute : Nat
  window_size_seconds : ℚ
deriving DecidableEq

structure RateLimitInfo where
  limit : Nat
  remaining : Int
  reset : ℚ
  retry_after : ℚ
deriving DecidableEq

/-- Lines 52–56: keep the request timestamps with `req_time > cutoff_time`
where `cutoff_time = current_time - window_size_seconds`. -/
def pruneRequests (current_time window : ℚ) (requests : List ℚ) : List ℚ :=
  requests.filter (fun req_time => req_time > current_time - window)

/-- Python `min` over a nonempty list (junk value 0 on the empty list,
which the code never reaches because it guards on emptiness first). -/
def listMin : List ℚ → ℚ
  | [] => 0
  | [x] => x
  | x :: y :: xs => min x (listMin (y :: xs))

/-- `RateLimiter.is_allowed` (lines 30–83), acting on one client's stored
timestamp list; returns the allowed flag, the rate-limit info and the new
stored list. -/
def RateLimiter.is_allowed (rl : RateLimiter) (requests : List ℚ)
    (current_time : ℚ) : Bool × RateLimitInfo × List ℚ :=
  let pruned := pruneRequests current_time rl.window_size_seconds requests
  let current_request_count := pruned.length
  let allowed : Bool := decide (current_request_count < rl.requests_per_minute)
  let newRequests := if allowed then pruned ++ [current_time] else pruned
  let reset_time :=
    if newRequests.isEmpty then current_time + rl.window_size_seconds
    else listMin newRequests + rl.window_size_seconds
  let info : RateLimitInfo :=
    { limit := rl.requests_per_minute
      remaining := max 0 ((rl.requests_per_minute : Int) - current_request_count
        - (if allowed then 1 else 0))
      reset := reset_time
      retry_after := if allowed then 0 else max 0 (reset_time - current_time) }
  (allowed, info, newRequests)

/-- Run a sequence of `is_allowed` checks for a single client, collecting
each call's result and threading the stored timestamp list. -/
def RateLimiter.run (rl : RateLimiter) (requests : List ℚ) :
    List ℚ → List (Bool × RateLimitInfo) × List ℚ
  | [] => ([], requests)
  | t :: ts =>
    let step := rl.is_allowed requests t
    let rest := rl.run step.2.2 ts
    ((step.1, step.2.1) :: rest.1, rest.2)

/-! ## String primitives shared by the embeddings

Python strings are modelled as `List Char`; the helpers below embed the
`str` methods the sources use (`strip`, `split`, `in`, `replace`,
`endswith`, `join`). -/

/-- The characters Python `str.strip()` and `str.split()` treat as
whitespace (for the ASCII range relevant here). -/
def pyWhitespace (c : Char) : Bool :=
  c == ' ' || c == '\t' || c == '\n' || c == '\x0d' || c == '\x0b' || c == '\x0c'

/-- Python `str.strip()`: drop leading and trailing whitespace. -/
def stripWs (s : List Char) : List Char :=
  ((s.dropWhile pyWhitespace).reverse.dropWhile pyWhitespace).reverse

/-- Does `s` start with `pat`? (embeds Python `str.startswith` and serves
as the single-position matcher for `in` and `replace`). -/
def beginsWith : List Char → List Char → Bool
  | [], _ => true
  | _ :: _, [] => false
  | p :: ps, c :: cs => p == c && beginsWith ps cs

/-- Python `pat in s`: `pat` occurs contiguously in `s`. -/
def hasSub (pat : List Char) : List Char → Bool
  | [] => beginsWith pat []
  | c :: cs => beginsWith pat (c :: cs) || hasSub pat cs

/-- Python `str.split()` (no argument): split on whitespace runs,
discarding empty pieces.  `acc` holds the current word reversed. -/
def splitWsAux : List Char → List Char → List (List Char)
  | [], acc => if acc.isEmpty then [] else [acc.reverse]
  | c :: cs, acc =>
    if pyWhitespace c then
      if acc.isEmpty then splitWsAux cs [] else acc.reverse :: splitWsAux cs []
    else splitWsAux cs (c :: acc)

def splitWs (s : List Char) : List (List Char) := splitWsAux s []

/-- `re.split(r'[.!?]+', text)` semantics: split on maximal nonempty runs
of separator characters, keeping the (possibly empty) pieces between
runs and at both ends. -/
def splitRuns (p : Char → Bool) : List Char → List (List Char)
  | [] => [[]]
  | [c] => if p c then [[], []] else [[c]]
  | c :: c2 :: cs =>
    let rest := splitRuns p (c2 :: cs)
    if p c then
      if p c2 then rest else [] :: rest
    else
      match rest with
      | [] => [[c]]
      | t :: ts => (c :: t) :: ts

/-- Python `str.replace(pat, rep)` with nonempty `pat`: scan left to
right, replace non-overlapping occurrences, never rescanning the replaced
text.  `fuel` bounds the number of steps; `replaceAll` supplies
`s.length`, which suffices because every step consumes at least one
character of `s`. -/
def replaceFuel (pat rep : List Char) : Nat → List Char → List Char
  | 0, s => s
  | _ + 1, [] => []
  | n + 1, c :: cs =>
    if beginsWith pat (c :: cs) then
      rep ++ replaceFuel pat rep n ((c :: cs).drop pat.length)
    else
      c :: replaceFuel pat rep n cs

def replaceAll (pat rep s : List Char) : List Char :=
  replaceFuel pat rep s.length s

/-! ## Eminem verse formatter (src/api/app.py, format_eminem_response) -/

/-- The literal segment-boundary marker `|||LINEBREAK|||`. -/
def marker : List Char := "|||LINEBREAK|||".toList

/-- Sentence-terminal punctuation, the class `[.!?]` of the splitting
regex and the tuple of `word.endswith(('!', '.', '?'))`. -/
def isTerminalPunct (c : Char) : Bool :=
  c == '.' || c == '!' || c == '?'

/-- The `for i, sentence in enumerate(sentences)` loop of
`add_rap_formatting` (lines 298–311): strip each sentence, skip empty
ones, emit the marker before every sentence at a positive even index,
emit the sentence, and emit `"!"` after every sentence except the one at
the last index.  `n` is `len(sentences)`, `i` the running index. -/
def buildFormatted (n : Nat) : Nat → List (List Char) → List (List Char)
  | _, [] => []
  | i, sentence :: rest =>
    let s := stripWs sentence
    if s.isEmpty then buildFormatted n (i + 1) rest
    else
      (if 0 < i ∧ i % 2 = 0 then [marker] else []) ++ s ::
        ((if i < n - 1 then [['!']] else []) ++ buildFormatted n (i + 1) rest)

/-- Python `word.endswith(('!', '.', '?'))`. -/
def endsTerminalPunct (w : List Char) : Bool :=
  match w.getLast? with
  | some c => isTerminalPunct c
  | none => false

/-- The fallback loop of `add_rap_formatting` (lines 318–333): greedily
accumulate words into `current_line`; once the accumulated character
count exceeds 80 and the word just added ends in terminal punctuation,
close the line.  A nonempty `current_line` is flushed at the end. -/
def fallbackAux : List (List Char) → List (List Char) → Nat → List (List Char)
  | [], current_line, _ =>
    if current_line.isEmpty then [] else [List.intercalate [' '] current_line]
  | word :: ws, current_line, char_count =>
    let line := current_line ++ [word]
    let count := char_count + word.length + 1
    if count > 80 && endsTerminalPunct word then
      List.intercalate [' '] line :: fallbackAux ws [] 0
    else
      fallbackAux ws line count

/-- `add_rap_formatting` (src/api/app.py lines 285–337). -/
def add_rap_formatting (text : List Char) : List Char :=
  if text.isEmpty then text
  else if hasSub marker text then text
  else
    let sentences := splitRuns isTerminalPunct text
    let formatted_lines := buildFormatted sentences.length 0 sentences
    let result := List.intercalate [' '] formatted_lines
    if hasSub marker result then result
    else
      let words := splitWs result
      let lines := fallbackAux words [] 0
      List.intercalate marker lines

/-! ## Response cleaning and validation (src/api/_utils.py) -/

/-- The opening fence pattern `'```json'`. -/
def fenceJson : List Char := "```json".toList

/-- The plain fence pattern `'```'`. -/
def fence : List Char := "```".toList

/-- `clean_json_response` (lines 32–42):
`response_text.strip().replace('```json', '').replace('```', '').strip()`. -/
def clean_json_response (response_text : List Char) : List Char :=
  stripWs (replaceAll fence [] (replaceAll fenceJson [] (stripWs response_text)))

/-- The markdown-fenced form `"```json\n" + j + "\n```"` of an inner text. -/
def fencedWrap (j : List Char) : List Char :=
  "```json\n".toList ++ j ++ "\n```".toList

/-- The validation pipeline of `generate_paper_summary`
(src/api/app.py lines 253–267): clean the raw text, strict-JSON-parse it
(`safe_json_loads`, an external parser passed as `loads`), then check the
required top-level fields (`validate_required_fields`, passed as
`requiredFieldsOk`). -/
def parse_and_validate {J : Type} (loads : List Char → Option J)
    (requiredFieldsOk : J → Bool) (raw : List Char) : Option J :=
  match loads (clean_json_response raw) with
  | none => none
  | some parsed => if requiredFieldsOk parsed then some parsed else none

/-! ## Text truncation (src/api/_utils.py, src/api/app.py, _config.py) -/

def MAX_TEXT_LENGTH : Nat := 100000

/-- The default `suffix` argument of `truncate_text`. -/
def truncationSuffix : List Char := "\n\n[Text truncated due to length]".toList

/-- `truncate_text` (src/api/_utils.py lines 62–76). -/
def truncate_text (text : List Char) (max_length : Nat) (suffix : List Char) :
    List Char :=
  if text.length ≤ max_length then text else text.take max_length ++ suffix

/-- The text submitted to the AI collaborator by `generate_paper_summary`
(src/api/app.py lines 233–235). -/
def submitted_text (paper_text : List Char) : List Char :=
  if paper_text.length > MAX_TEXT_LENGTH then
    truncate_text paper_text MAX_TEXT_LENGTH truncationSuffix
  else paper_text

/-! ## arXiv URL validation (src/api/_utils.py, validate_arxiv_url)

The regex
`^https?://(www\.)?arxiv\.org/(abs|pdf)/\d{4}\.\d{4,5}(v\d+)?/?(\.(pdf))?$`
is embedded as a deterministic parser.  Greedy choices are safe here: each
optional element is followed by grammar elements that cannot start with
the characters the element consumes (a digit after `\d{4}` is never a
valid continuation of `(v\d+)?/?(\.(pdf))?$`, `/` is not `.`, etc.), so
no backtracking is ever needed. -/

/-- Consume a literal, or fail. -/
def eatLit (lit s : List Char) : Option (List Char) :=
  if beginsWith lit s then some (s.drop lit.length) else none

/-- Consume an optional literal. -/
def eatOpt (lit s : List Char) : List Char :=
  if beginsWith lit s then s.drop lit.length else s

/-- Consume exactly `n` ASCII digits. -/
def eatDigits : Nat → List Char → Option (List Char)
  | 0, s => some s
  | _ + 1, [] => none
  | n + 1, c :: cs => if c.isDigit then eatDigits n cs else none

/-- Consume one optional digit (the fifth digit of `\d{4,5}`). -/
def eatOptDigit : List Char → List Char
  | [] => []
  | c :: cs => if c.isDigit then cs else c :: cs

/-- Consume an optional version suffix `v\d+`. -/
def eatOptVer : List Char → List Char
  | 'v' :: c :: cs =>
    if c.isDigit then (c :: cs).dropWhile (fun d => d.isDigit) else 'v' :: c :: cs
  | s => s

/-- The tail `(v\d+)?/?(\.(pdf))?$` after the identifier digits. -/
def validTail (s : List Char) : Bool :=
  (eatOpt ".pdf".toList (eatOpt "/".toList (eatOptVer s))).isEmpty

/-- `validate_arxiv_url` (src/api/_utils.py lines 79–90):
`re.match(arxiv_pattern, url.strip())` turned into a Bool. -/
def validate_arxiv_url (url : List Char) : Bool :=
  match eatLit "http".toList (stripWs url) with
  | none => false
  | some s1 =>
    match eatLit "://".toList (eatOpt "s".toList s1) with
    | none => false
    | some s2 =>
      match eatLit "arxiv.org/".toList (eatOpt "www.".toList s2) with
      | none => false
      | some s3 =>
        match (eatLit "abs/".toList s3).orElse (fun _ => eatLit "pdf/".toList s3) with
        | none => false
        | some s4 =>
          match eatDigits 4 s4 with
          | none => false
          | some s5 =>
            match s5 with
            | '.' :: s6 =>
              match eatDigits 4 s6 with
              | none => false
              | some s7 => validTail (eatOptDigit s7)
            | _ => false

/-! ## Style prompts and request validation
(src/api/app.py get_system_prompt; src/backend/security.py) -/

/-- The prompt texts of the `style_prompts` dict, represented by atomic
tokens: their English wording plays no role in the claims, only which
entry is selected. -/
inductive StyleInstruction
  | fiveYearOld | popCulture | anime | sports | food | gaming | marvel
  | harryPotter | brainRot | reddit | christopherNolan | eminem | shakespearean
deriving DecidableEq

/-- The keys of the `style_prompts` dict of `get_system_prompt`
(src/api/app.py lines 41–55), in source order, each paired with its
prompt token. -/
def style_prompts : List (String × StyleInstruction) :=
  [("five-year-old", .fiveYearOld), ("pop-culture", .popCulture),
   ("anime", .anime), ("sports", .sports), ("food", .food),
   ("gaming", .gaming), ("marvel", .marvel), ("harry-potter", .harryPotter),
   ("brain-rot", .brainRot), ("reddit", .reddit),
   ("christopher-nolan", .christopherNolan), ("eminem", .eminem),
   ("shakespearean", .shakespearean)]

/-- `get_system_prompt` (src/api/app.py lines 38–59):
`style_prompts.get(explanation_style, style_prompts["five-year-old"])`;
the fixed surrounding template is a constant wrapper and is omitted. -/
def get_system_prompt (explanation_style : String) : StyleInstruction :=
  match style_prompts.lookup explanation_style with
  | some instr => instr
  | none => StyleInstruction.fiveYearOld

/-- The `allowed_styles` set of
`SecureArxivRequest.validate_explanation_style`
(src/backend/security.py lines 148–151). -/
def allowed_styles : List String :=
  ["five-year-old", "pop-culture", "anime", "sports", "food",
   "gaming", "marvel", "harry-potter", "brain-rot", "reddit", "shakespearean"]

/-- `validate_explanation_style` (src/backend/security.py lines 145–156):
raise `ValueError` outside the allow-list, return the value otherwise.
(The Python error message interpolates the set in hash order; the message
text is fixed here.) -/
def validate_explanation_style (v : String) : Except String String :=
  if allowed_styles.contains v then Except.ok v
  else Except.error "Invalid explanation style"

/-! ## The summarize pipeline's cleanup behaviour (src/api/app.py 459–526)

The pipeline after URL validation is modelled as a function of a
`Scenario` giving each collaborator's outcome.  Exceptions are
`valueError` (`ValueError`, mapped to HTTP 400 by the inner handler) or
`exception` (any other `Exception`, mapped to 500).  The model tracks
whether the temporary PDF file was created and whether it still exists
when the request finishes. -/

inductive PyErr | valueError | exception
deriving DecidableEq

/-- Outcome of `extract_text_from_pdf` (src/api/app.py lines 126–159):
success; the oversize case, which removes the file itself before raising
`ValueError` (lines 130–132); or any other failure, which leaves the file
in place. -/
inductive ExtractOutcome
  | ok
  | tooLargeRemoved
  | fails (e : PyErr)
deriving DecidableEq

structure Scenario where
  fetch : Except PyErr Unit
  download : Except PyErr Unit
  extract : ExtractOutcome
  generate : Except PyErr Unit

structure RequestEnd where
  status : Nat
  pdfCreated : Bool
  pdfRemains : Bool
deriving DecidableEq

def statusOf : PyErr → Nat
  | .valueError => 400
  | .exception => 500

/-- The `finally` block (lines 513–520): remove the file iff `pdf_path`
was assigned and the file still exists; returns whether a file remains. -/
def runCleanup (assigned pdfExists : Bool) : Bool :=
  if assigned && pdfExists then false else pdfExists

/-- The body of `summarize` from `pdf_path = None` (line 459) to the end:
fetch, download (which assigns `pdf_path` on success; on failure the
temporary file it created is orphaned because its path never reached
`pdf_path`), extract, generate, and the `finally` cleanup on every exit
path of the inner try. -/
def summarize_run (s : Scenario) : RequestEnd :=
  match s.fetch with
  | .error e => { status := statusOf e, pdfCreated := false, pdfRemains := runCleanup false false }
  | .ok _ =>
    match s.download with
    | .error e =>
      { status := statusOf e, pdfCreated := true, pdfRemains := runCleanup false true }
    | .ok _ =>
      match s.extract with
      | .tooLargeRemoved =>
        { status := 400, pdfCreated := true, pdfRemains := runCleanup true false }
      | .fails e =>
        { status := statusOf e, pdfCreated := true, pdfRemains := runCleanup true true }
      | .ok =>
        match s.generate with
        | .error e =>
          { status := statusOf e, pdfCreated := true, pdfRemains := runCleanup true true }
        | .ok _ =>
          { status := 200, pdfCreated := true, pdfRemains := runCleanup true true }

/-! ## Rate limiter theorems -/

/-- C1: with capacity 5 and a 60-second window, five checks at `t = 0` are
all admitted; the sixth check at `t = 0` is rejected with
`reset = 0 + 60 = 60` and `retry_after = 60`; a seventh check at `t = 61`
is admitted again because the five `t = 0` timestamps have aged out. -/
theorem sliding_window_scenario :
    let rl : RateLimiter := ⟨5, 60⟩
    let r := rl.run [] [0, 0, 0, 0, 0, 0, 61]
    r.1.map Prod.fst = [true, true, true, true, true, false, true] ∧
    (r.1.map (fun p => p.2.retry_after)).getD 5 1 = 60 ∧
    (r.1.map (fun p => p.2.reset)).getD 5 0 = 60 ∧
    r.2 = [61] := by
  decide

/-- C3 counterexample: a stored timestamp exactly equal to
`now - window_seconds` is evicted by the pruning step, so the claimed
equivalence "survives iff `r ≥ now - window`" is false at
`now = 60`, `window = 60`, `r = 0`. -/
theorem prune_boundary_counterexample :
    ¬ (((0 : ℚ) ∈ pruneRequests 60 60 [0]) ↔ (0 : ℚ) ≥ 60 - 60) := by
  simp [pruneRequests]

/-- C3 amended: a stored timestamp `r` survives pruning if and only if it
was stored and `r > now - window_seconds` (strictly); a timestamp exactly
equal to `now - window_seconds` is evicted and does not count toward the
capacity comparison. -/
theorem prune_strict_membership (now window : ℚ) (l : List ℚ) (r : ℚ) :
    r ∈ pruneRequests now window l ↔ r ∈ l ∧ r > now - window := by
  simp [pruneRequests, List.mem_filter]

/-- The allowed flag of `is_allowed` is the capacity comparison on the
pruned list. -/
theorem is_allowed_fst (rl : RateLimiter) (l : List ℚ) (t : ℚ) :
    (rl.is_allowed l t).1 =
      decide ((pruneRequests t rl.window_size_seconds l).length
        < rl.requests_per_minute) := rfl

/-- The stored list after `is_allowed`: the pruned list, with `t`
appended exactly when the call is admitted. -/
theorem is_allowed_state (rl : RateLimiter) (l : List ℚ) (t : ℚ) :
    (rl.is_allowed l t).2.2 =
      if (pruneRequests t rl.window_size_seconds l).length
          < rl.requests_per_minute then
        pruneRequests t rl.window_size_seconds l ++ [t]
      else pruneRequests t rl.window_size_seconds l := by
  simp [RateLimiter.is_allowed]

theorem is_allowed_length_le (rl : RateLimiter) {l : List ℚ} (t : ℚ)
    (h : l.length ≤ rl.requests_per_minute) :
    (rl.is_allowed l t).2.2.length ≤ rl.requests_per_minute := by
  have hp : (pruneRequests t rl.window_size_seconds l).length ≤ l.length :=
    List.length_filter_le _ _
  rw [is_allowed_state]
  split
  · next hlt => simpa using Nat.succ_le_of_lt hlt
  · exact le_trans hp h

theorem run_length_le (rl : RateLimiter) (times : List ℚ) :
    ∀ l : List ℚ, l.length ≤ rl.requests_per_minute →
      (rl.run l times).2.length ≤ rl.requests_per_minute := by
  induction times with
  | nil => intro l h; simpa [RateLimiter.run] using h
  | cons t ts ih =>
    intro l h
    simp only [RateLimiter.run]
    exact ih _ (is_allowed_length_le rl t h)

/-- C10: starting from the empty record, the stored timestamp list never
holds more than `capacity` entries after any sequence of `is_allowed`
calls; and a call appends its timestamp exactly when it returns allowed
(a rejected call only prunes). -/
theorem store_capacity_invariant :
    (∀ (cap : Nat) (window : ℚ) (times : List ℚ),
      ((RateLimiter.mk cap window).run [] times).2.length ≤ cap) ∧
    ∀ (rl : RateLimiter) (requests : List ℚ) (t : ℚ),
      ((rl.is_allowed requests t).1 = false →
        (rl.is_allowed requests t).2.2 =
          pruneRequests t rl.window_size_seconds requests) ∧
      ((rl.is_allowed requests t).1 = true →
        (rl.is_allowed requests t).2.2 =
          pruneRequests t rl.window_size_seconds requests ++ [t]) := by
  constructor
  · intro cap window times
    exact run_length_le ⟨cap, window⟩ times [] (Nat.zero_le _)
  · intro rl requests t
    constructor
    · intro h
      rw [is_allowed_fst] at h
      rw [is_allowed_state, if_neg (of_decide_eq_false h)]
    · intro h
      rw [is_allowed_fst] at h
      rw [is_allowed_state, if_pos (of_decide_eq_true h)]

theorem store_capacity_invariant_witness :
    ((RateLimiter.mk 5 60).run [] [0, 0, 61]).2.length ≤ 5 ∧
    ((RateLimiter.mk 1 60).is_allowed [0] 0).1 = false ∧
    ((RateLimiter.mk 1 60).is_allowed [0] 0).2.2 = pruneRequests 0 60 [0] ∧
    ((RateLimiter.mk 1 60).is_allowed [] 0).1 = true ∧
    ((RateLimiter.mk 1 60).is_allowed [] 0).2.2 = pruneRequests 0 60 [] ++ [0] :=
  ⟨store_capacity_invariant.1 5 60 [0, 0, 61],
   by decide,
   (store_capacity_invariant.2 ⟨1, 60⟩ [0] 0).1 (by decide),
   by decide,
   (store_capacity_invariant.2 ⟨1, 60⟩ [] 0).2 (by decide)⟩

/-! ## Cleanup theorems -/

/-- C2: whenever the download step returns a local file path (fetch and
download both succeed), the temporary file is gone when the request
finishes, on every exit path: success, oversize removal, any other
extract failure and any generate failure. -/
theorem cleanup_after_download (s : Scenario)
    (hf : s.fetch = Except.ok ()) (hd : s.download = Except.ok ()) :
    (summarize_run s).pdfCreated = true ∧ (summarize_run s).pdfRemains = false := by
  obtain ⟨f, d, e, g⟩ := s
  simp only at hf hd
  subst hf
  subst hd
  cases e <;> cases g <;> simp [summarize_run, runCleanup, statusOf]

theorem cleanup_after_download_witness :
    (summarize_run ⟨Except.ok (), Except.ok (), .fails .exception, Except.ok ()⟩).pdfCreated
      = true ∧
    (summarize_run ⟨Except.ok (), Except.ok (), .fails .exception, Except.ok ()⟩).pdfRemains
      = false :=
  cleanup_after_download _ rfl rfl

/-! ## Truncation theorems -/

/-- C7: text longer than `MAX_TEXT_LENGTH` is submitted as exactly the
first `MAX_TEXT_LENGTH` characters followed by the literal suffix
`"\n\n[Text truncated due to length]"`; text within the limit is
submitted unchanged. -/
theorem truncation_exact (t : List Char) :
    (t.length > MAX_TEXT_LENGTH →
      submitted_text t = t.take MAX_TEXT_LENGTH ++ truncationSuffix) ∧
    (t.length ≤ MAX_TEXT_LENGTH → submitted_text t = t) := by
  constructor
  · intro h
    rw [submitted_text, if_pos h, truncate_text, if_neg (Nat.not_le.mpr h)]
  · intro h
    rw [submitted_text, if_neg (Nat.not_lt.mpr h)]

theorem truncation_exact_witness :
    (List.replicate (MAX_TEXT_LENGTH + 1) 'a').length > MAX_TEXT_LENGTH ∧
    submitted_text (List.replicate (MAX_TEXT_LENGTH + 1) 'a') =
      (List.replicate (MAX_TEXT_LENGTH + 1) 'a').take MAX_TEXT_LENGTH
        ++ truncationSuffix ∧
    ([] : List Char).length ≤ MAX_TEXT_LENGTH ∧
    submitted_text ([] : List Char) = [] := by
  have h1 : (List.replicate (MAX_TEXT_LENGTH + 1) 'a').length > MAX_TEXT_LENGTH := by
    simp
  have h2 : ([] : List Char).length ≤ MAX_TEXT_LENGTH := by simp
  exact ⟨h1, (truncation_exact _).1 h1, h2, (truncation_exact _).2 h2⟩

/-! ## URL validation theorems -/

/-- C8: the validator accepts `https://arxiv.org/abs/2301.12345` and
`https://arxiv.org/abs/2301.12345v2`, and rejects
`https://evil.com/abs/2301.12345` (host not arxiv.org) and
`https://arxiv.org/abs/12345` (identifier not `\d{4}.\d{4,5}`). -/
theorem url_validation_cases :
    validate_arxiv_url "https://arxiv.org/abs/2301.12345".toList = true ∧
    validate_arxiv_url "https://arxiv.org/abs/2301.12345v2".toList = true ∧
    validate_arxiv_url "https://evil.com/abs/2301.12345".toList = false ∧
    validate_arxiv_url "https://arxiv.org/abs/12345".toList = false := by
  decide

/-! ## Style-tag asymmetry theorems -/

theorem lookup_eq_none_of_not_mem_keys {β : Type} :
    ∀ (l : List (String × β)) (s : String),
      s ∉ l.map Prod.fst → l.lookup s = none := by
  intro l
  induction l with
  | nil => intro s _; rfl
  | cons p l ih =>
    intro s hs
    obtain ⟨k, v⟩ := p
    simp only [List.map_cons, List.mem_cons, not_or] at hs
    simp only [List.lookup, beq_eq_false_iff_ne.mpr hs.1]
    exact ih s hs.2

/-- C9: the system-prompt lookup is total and falls back to the
five-year-old variant on every unrecognized style tag, while the
request-validation path rejects every style outside its allow-list. -/
theorem style_handling_asymmetry :
    (∀ s : String, s ∉ style_prompts.map Prod.fst →
      get_system_prompt s = StyleInstruction.fiveYearOld) ∧
    ∀ s : String, s ∉ allowed_styles →
      validate_explanation_style s = Except.error "Invalid explanation style" := by
  constructor
  · intro s hs
    rw [get_system_prompt, lookup_eq_none_of_not_mem_keys _ _ hs]
  · intro s hs
    rw [validate_explanation_style,
      if_neg (by simpa [List.contains, List.elem_iff] using hs)]

theorem style_handling_asymmetry_witness :
    get_system_prompt "eminem-2" = StyleInstruction.fiveYearOld ∧
    validate_explanation_style "eminem" = Except.error "Invalid explanation style" :=
  ⟨style_handling_asymmetry.1 "eminem-2" (by decide),
   style_handling_asymmetry.2 "eminem" (by decide)⟩

/-! ## Verse-formatter theorems -/

/-- C5 counterexample: the verse formatter is not idempotent.  On
`"a.b. .c"` the first pass yields `"a ! b ! c"` (no marker: the fallback
never fires because no word ends in terminal punctuation), and the
second pass re-splits on the inserted `!` separators, now reaching a
nonempty sentence at even index 2 and inserting a marker:
`"a ! b ! |||LINEBREAK||| c"`. -/
theorem add_verse_breaks_not_idempotent :
    add_rap_formatting (add_rap_formatting "a.b. .c".toList) ≠
      add_rap_formatting "a.b. .c".toList := by
  decide

/-- C5 amended: the formatter returns unchanged every input that already
contains the literal marker, so a second application is the identity
precisely on those first-pass outputs that contain a marker; full
idempotence fails (see the counterexample). -/
theorem marker_inputs_returned_unchanged :
    (∀ t : List Char, hasSub marker t = true → add_rap_formatting t = t) ∧
    ∀ t : List Char, hasSub marker (add_rap_formatting t) = true →
      add_rap_formatting (add_rap_formatting t) = add_rap_formatting t := by
  have base : ∀ t : List Char, hasSub marker t = true → add_rap_formatting t = t := by
    intro t h
    have ht : t.isEmpty = false := by
      cases t with
      | nil => exact absurd h (by decide)
      | cons c cs => rfl
    rw [add_rap_formatting, ht]
    simp [h]
  exact ⟨base, fun t h => base _ h⟩

theorem marker_inputs_returned_unchanged_witness :
    hasSub marker marker = true ∧
    add_rap_formatting marker = marker ∧
    hasSub marker (add_rap_formatting "x |||LINEBREAK||| y".toList) = true ∧
    add_rap_formatting (add_rap_formatting "x |||LINEBREAK||| y".toList) =
      add_rap_formatting "x |||LINEBREAK||| y".toList :=
  ⟨by decide,
   marker_inputs_returned_unchanged.1 marker (by decide),
   by decide,
   marker_inputs_returned_unchanged.2 "x |||LINEBREAK||| y".toList (by decide)⟩

/-- C4 counterexample: a 500-character single-sentence input with no
sentence-terminal punctuation for which the formatter's output contains
no marker at all: the fallback closes a line only when the triggering
word ends in `!`, `.` or `?`, which never happens here. -/
theorem fallback_no_marker_counterexample :
    hasSub marker (add_rap_formatting (List.replicate 500 'a')) = false := by
  decide

/-! ## Substring and replacement lemmas -/

theorem beginsWith_iff (p : List Char) : ∀ s, beginsWith p s = true ↔ p <+: s := by
  induction p with
  | nil => intro s; cases s <;> simp [beginsWith, List.nil_prefix]
  | cons a p ih =>
    intro s
    cases s with
    | nil => simp [beginsWith]
    | cons b t =>
      rw [List.cons_prefix_cons, ← ih t]
      show (a == b && beginsWith p t) = true ↔ _
      rw [Bool.and_eq_true, beq_iff_eq]

theorem beginsWith_head_false {pat : List Char} {c : Char} (t : List Char)
    (hne : pat ≠ []) (hc : c ∉ pat) : beginsWith pat (c :: t) = false := by
  cases pat with
  | nil => exact absurd rfl hne
  | cons p ps =>
    have hpc : (p == c) = false :=
      beq_eq_false_iff_ne.mpr fun h => hc (List.mem_cons.mpr (Or.inl h.symm))
    simp [beginsWith, hpc]

theorem pre_append_cons {b : List Char} {c : Char} :
    ∀ {a pat : List Char}, pat <+: a ++ c :: b → c ∈ pat ∨ pat <+: a := by
  intro a
  induction a with
  | nil =>
    intro pat h
    cases pat with
    | nil => exact Or.inr List.nil_prefix
    | cons p ps =>
      rw [List.nil_append, List.cons_prefix_cons] at h
      exact Or.inl (List.mem_cons.mpr (Or.inl h.1.symm))
  | cons x a' ih =>
    intro pat h
    cases pat with
    | nil => exact Or.inr List.nil_prefix
    | cons p ps =>
      rw [List.cons_append, List.cons_prefix_cons] at h
      rcases ih h.2 with hc | hps
      · exact Or.inl (List.mem_cons_of_mem p hc)
      · exact Or.inr (List.cons_prefix_cons.mpr ⟨h.1, hps⟩)

theorem infix_append_cons {pat : List Char} {c : Char} {b : List Char} :
    ∀ a : List Char, pat <:+: a ++ c :: b → c ∈ pat ∨ pat <:+: a ∨ pat <:+: b := by
  intro a
  induction a with
  | nil =>
    intro h
    rcases List.infix_cons_iff.mp h with hpre | hsuf
    · rcases pre_append_cons (a := []) (by simpa using hpre) with hc | hnil
      · exact Or.inl hc
      · exact Or.inr (Or.inl (List.prefix_nil.mp hnil ▸ List.nil_infix))
    · exact Or.inr (Or.inr hsuf)
  | cons x a' ih =>
    intro h
    rcases List.infix_cons_iff.mp h with hpre | hsuf
    · rcases pre_append_cons (a := x :: a') hpre with hc | hpa
      · exact Or.inl hc
      · exact Or.inr (Or.inl hpa.isInfix)
    · rcases ih hsuf with hc | ha | hb
      · exact Or.inl hc
      · exact Or.inr (Or.inl (List.infix_cons_iff.mpr (Or.inr ha)))
      · exact Or.inr (Or.inr hb)

theorem hasSub_eq_true_iff (pat : List Char) : ∀ s, hasSub pat s = true ↔ pat <:+: s := by
  intro s
  induction s with
  | nil => simp [hasSub, beginsWith_iff, List.infix_nil, List.prefix_nil]
  | cons c cs ih => simp [hasSub, beginsWith_iff, ih, List.infix_cons_iff]

theorem hasSub_false_mono {pat t s : List Char} (hts : t <:+: s)
    (h : hasSub pat s = false) : hasSub pat t = false := by
  cases htb : hasSub pat t with
  | false => rfl
  | true =>
    exact absurd ((hasSub_eq_true_iff pat s).mpr
      (((hasSub_eq_true_iff pat t).mp htb).trans hts)) (by simp [h])

theorem replaceFuel_congr {pat : List Char} (rep : List Char) (hp : pat ≠ []) :
    ∀ (n : Nat) (s : List Char) (m : Nat), s.length ≤ n → s.length ≤ m →
      replaceFuel pat rep n s = replaceFuel pat rep m s := by
  intro n
  induction n with
  | zero =>
    intro s m h1 _
    have hs : s = [] := List.length_eq_zero.mp (Nat.le_zero.mp h1)
    subst hs
    cases m <;> rfl
  | succ n ih =>
    intro s m h1 h2
    cases s with
    | nil => cases m <;> rfl
    | cons c cs =>
      cases m with
      | zero => simp at h2
      | succ m =>
        have hpat : 1 ≤ pat.length := List.length_pos.mpr hp
        simp only [replaceFuel]
        by_cases hb : beginsWith pat (c :: cs) = true
        · rw [if_pos hb, if_pos hb]
          have hd : ((c :: cs).drop pat.length).length ≤ n := by
            simp only [List.length_drop, List.length_cons]
            simp only [List.length_cons] at h1
            omega
          have hd' : ((c :: cs).drop pat.length).length ≤ m := by
            simp only [List.length_drop, List.length_cons]
            simp only [List.length_cons] at h2
            omega
          rw [ih _ m hd hd']
        · rw [if_neg hb, if_neg hb]
          simp only [List.length_cons] at h1 h2
          rw [ih cs m (by omega) (by omega)]

theorem replaceAll_cons_pos {pat s : List Char} (rep : List Char) (hp : pat ≠ [])
    (h : beginsWith pat s = true) :
    replaceAll pat rep s = rep ++ replaceAll pat rep (s.drop pat.length) := by
  cases s with
  | nil =>
    have : pat = [] := List.prefix_nil.mp ((beginsWith_iff pat []).mp h)
    exact absurd this hp
  | cons c cs =>
    have hpat : 1 ≤ pat.length := List.length_pos.mpr hp
    show replaceFuel pat rep (cs.length + 1) (c :: cs) = _
    rw [replaceFuel, if_pos h]
    congr 1
    apply replaceFuel_congr rep hp
    · simp only [List.length_drop, List.length_cons]; omega
    · exact Nat.le_refl _

theorem replaceAll_cons_neg {pat : List Char} {c : Char} {cs : List Char}
    (rep : List Char) (h : beginsWith pat (c :: cs) = false) :
    replaceAll pat rep (c :: cs) = c :: replaceAll pat rep cs := by
  show replaceFuel pat rep (cs.length + 1) (c :: cs) = _
  rw [replaceFuel, if_neg (by simp [h])]
  rfl

theorem replaceAll_id_of_no_mem {pat : List Char} (rep : List Char) (hp : pat ≠ []) :
    ∀ s : List Char, (∀ c ∈ s, c ∉ pat) → replaceAll pat rep s = s := by
  intro s
  induction s with
  | nil => intro _; rfl
  | cons c cs ih =>
    intro h
    rw [replaceAll_cons_neg rep
      (beginsWith_head_false cs hp (h c (List.mem_cons_self c cs)))]
    rw [ih fun x hx => h x (List.mem_cons_of_mem c hx)]

theorem replaceAll_append_cons {pat : List Char} {c : Char} (rep b : List Char)
    (hp : pat ≠ []) (hc : c ∉ pat) :
    ∀ a, replaceAll pat rep (a ++ c :: b) =
      replaceAll pat rep a ++ c :: replaceAll pat rep b := by
  suffices H : ∀ (n : Nat) (a : List Char), a.length ≤ n →
      replaceAll pat rep (a ++ c :: b) =
        replaceAll pat rep a ++ c :: replaceAll pat rep b by
    exact fun a => H a.length a (Nat.le_refl _)
  intro n
  induction n with
  | zero =>
    intro a ha
    have : a = [] := List.length_eq_zero.mp (Nat.le_zero.mp ha)
    subst this
    simp only [List.nil_append]
    rw [replaceAll_cons_neg rep (beginsWith_head_false b hp hc)]
    rfl
  | succ n ih =>
    intro a ha
    cases a with
    | nil =>
      simp only [List.nil_append]
      rw [replaceAll_cons_neg rep (beginsWith_head_false b hp hc)]
      rfl
    | cons x a' =>
      have hpat : 1 ≤ pat.length := List.length_pos.mpr hp
      simp only [List.length_cons] at ha
      by_cases hb : beginsWith pat (x :: a' ++ c :: b) = true
      · have hpre : pat <+: (x :: a') ++ c :: b := (beginsWith_iff pat _).mp hb
        rcases pre_append_cons hpre with hmem | hpa
        · exact absurd hmem hc
        · have hlen : pat.length ≤ (x :: a').length := hpa.length_le
          have hba : beginsWith pat (x :: a') = true := (beginsWith_iff pat _).mpr hpa
          rw [replaceAll_cons_pos rep hp hb, replaceAll_cons_pos rep hp hba,
            List.drop_append_of_le_length hlen]
          have hdlen : ((x :: a').drop pat.length).length ≤ n := by
            simp only [List.length_drop, List.length_cons]
            omega
          rw [ih _ hdlen, List.append_assoc]
      · have hbf : beginsWith pat (x :: a' ++ c :: b) = false := by
          simpa using hb
        have hb' : beginsWith pat (x :: a') = false := by
          by_contra hbx
          rw [Bool.not_eq_false] at hbx
          have hpre2 : pat <+: (x :: a') ++ c :: b :=
            ((beginsWith_iff pat _).mp hbx).trans ⟨c :: b, rfl⟩
          exact hb ((beginsWith_iff pat _).mpr hpre2)
        have hsh : (x :: a') ++ c :: b = x :: (a' ++ c :: b) := rfl
        rw [hsh, replaceAll_cons_neg rep (by rw [← hsh]; exact hbf),
          replaceAll_cons_neg rep hb', ih a' (by omega), List.cons_append]

theorem replaceAll_ws_left {pat : List Char} (rep : List Char) (hp : pat ≠ [])
    (hw : ∀ c ∈ pat, pyWhitespace c = false) (x : List Char) :
    ∀ a, (∀ c ∈ a, pyWhitespace c = true) →
      replaceAll pat rep (a ++ x) = a ++ replaceAll pat rep x := by
  intro a
  induction a with
  | nil => intro _; rfl
  | cons c a' ih =>
    intro h
    have hc : c ∉ pat := fun hmem => by
      have := hw c hmem
      rw [h c (List.mem_cons_self c a')] at this
      exact Bool.noConfusion this
    rw [List.cons_append, replaceAll_cons_neg rep (beginsWith_head_false _ hp hc),
      ih fun y hy => h y (List.mem_cons_of_mem c hy)]
    rfl

theorem replaceAll_ws_right {pat : List Char} (rep : List Char) (hp : pat ≠ [])
    (hw : ∀ c ∈ pat, pyWhitespace c = false) (x : List Char) :
    ∀ b, (∀ c ∈ b, pyWhitespace c = true) →
      replaceAll pat rep (x ++ b) = replaceAll pat rep x ++ b := by
  intro b
  cases b with
  | nil => intro _; simp
  | cons c b' =>
    intro h
    have hc : c ∉ pat := fun hmem => by
      have := hw c hmem
      rw [h c (List.mem_cons_self c b')] at this
      exact Bool.noConfusion this
    rw [replaceAll_append_cons rep b' hp hc x,
      replaceAll_id_of_no_mem rep hp b' (fun y hy hymem => by
        have := hw y hymem
        rw [h y (List.mem_cons_of_mem c hy)] at this
        exact Bool.noConfusion this)]

/-! ## Whitespace-stripping lemmas -/

theorem stripWs_cons_ws {c : Char} (h : pyWhitespace c = true) (s : List Char) :
    stripWs (c :: s) = stripWs s := by
  simp [stripWs, List.dropWhile_cons, h]

theorem stripWs_append_ws {c : Char} (h : pyWhitespace c = true) (s : List Char) :
    stripWs (s ++ [c]) = stripWs s := by
  rw [stripWs, stripWs, List.dropWhile_append]
  split
  · next hemp =>
    simp only [List.dropWhile_cons, h, if_true, List.dropWhile_nil]
    rw [List.isEmpty_iff.mp hemp]
  · next hemp =>
    simp [List.reverse_append, List.dropWhile_cons, h]

theorem stripWs_ws_left :
    ∀ a : List Char, (∀ c ∈ a, pyWhitespace c = true) →
      ∀ s, stripWs (a ++ s) = stripWs s := by
  intro a
  induction a with
  | nil => intro _ s; rfl
  | cons c a' ih =>
    intro h s
    rw [List.cons_append, stripWs_cons_ws (h c (List.mem_cons_self c a')),
      ih (fun y hy => h y (List.mem_cons_of_mem c hy)) s]

theorem stripWs_ws_right (s : List Char) :
    ∀ b : List Char, (∀ c ∈ b, pyWhitespace c = true) →
      stripWs (s ++ b) = stripWs s := by
  intro b
  induction b using List.reverseRecOn with
  | nil => intro _; simp
  | append_singleton b' c ih =>
    intro h
    rw [← List.append_assoc, stripWs_append_ws (h c (by simp)),
      ih fun y hy => h y (by simp [hy])]

theorem strip_decomposition (s : List Char) :
    ∃ a b : List Char, (∀ c ∈ a, pyWhitespace c = true) ∧
      (∀ c ∈ b, pyWhitespace c = true) ∧ s = a ++ (stripWs s ++ b) := by
  refine ⟨s.takeWhile pyWhitespace,
    ((s.dropWhile pyWhitespace).reverse.takeWhile pyWhitespace).reverse,
    fun c hc => List.mem_takeWhile_imp hc,
    fun c hc => List.mem_takeWhile_imp (List.mem_reverse.mp hc), ?_⟩
  conv_lhs => rw [← List.takeWhile_append_dropWhile pyWhitespace s]
  congr 1
  rw [stripWs]
  conv_lhs => rw [← List.reverse_reverse (s.dropWhile pyWhitespace),
    ← List.takeWhile_append_dropWhile pyWhitespace (s.dropWhile pyWhitespace).reverse]
  rw [List.reverse_append]

theorem stripWs_sandwich {c d : Char} (x : List Char)
    (hc : pyWhitespace c = false) (hd : pyWhitespace d = false) :
    stripWs (c :: (x ++ [d])) = c :: (x ++ [d]) := by
  have h1 : List.dropWhile pyWhitespace (c :: (x ++ [d])) = c :: (x ++ [d]) := by
    simp [List.dropWhile_cons, hc]
  have h2 : (c :: (x ++ [d])).reverse = d :: (x.reverse ++ [c]) := by
    simp [List.reverse_cons, List.reverse_append]
  have h3 : List.dropWhile pyWhitespace (d :: (x.reverse ++ [c])) =
      d :: (x.reverse ++ [c]) := by
    simp [List.dropWhile_cons, hd]
  rw [stripWs, h1, h2, h3, ← h2, List.reverse_reverse]

/-! ## Fenced-input agreement (claim C6) -/

theorem clean_json_fenced (j : List Char) :
    clean_json_response (fencedWrap j) = clean_json_response j := by
  have hpJ : fenceJson ≠ [] := by decide
  have hpF : fence ≠ [] := by decide
  have hwJ : ∀ c ∈ fenceJson, pyWhitespace c = false := by decide
  have hwF : ∀ c ∈ fence, pyWhitespace c = false := by decide
  have hnJ : '\n' ∉ fenceJson := by decide
  have hnF : '\n' ∉ fence := by decide
  have hwn : pyWhitespace '\n' = true := by decide
  -- the fenced text is already stripped: it starts and ends with a backtick
  have hshape : fencedWrap j =
      '\x60' :: (("``json\n".toList ++ (j ++ "\n``".toList)) ++ ['\x60']) := by
    show "```json\n".toList ++ (j ++ "\n```".toList) = _
    rw [show "\n```".toList = "\n``".toList ++ ['\x60'] from rfl,
      show "```json\n".toList = '\x60' :: "``json\n".toList from rfl]
    simp [List.append_assoc]
  have h1 : stripWs (fencedWrap j) = fencedWrap j := by
    rw [hshape, stripWs_sandwich _ (by decide) (by decide)]
  -- first replacement: the leading fence is consumed, the trailing one stays
  have hsplit : fencedWrap j = fenceJson ++ ('\n' :: (j ++ '\n' :: fence)) := by
    show "```json\n".toList ++ (j ++ "\n```".toList) = _
    rw [show "```json\n".toList = fenceJson ++ ['\n'] from rfl,
      show "\n```".toList = '\n' :: fence from rfl]
    simp [List.append_assoc]
  have h2 : replaceAll fenceJson [] (fencedWrap j) =
      '\n' :: (replaceAll fenceJson [] j ++ '\n' :: fence) := by
    rw [hsplit, replaceAll_cons_pos [] hpJ
      ((beginsWith_iff fenceJson _).mpr ⟨_, rfl⟩), List.drop_left, List.nil_append,
      replaceAll_cons_neg [] (beginsWith_head_false _ hpJ hnJ),
      replaceAll_append_cons [] fence hpJ hnJ j,
      show replaceAll fenceJson [] fence = fence from by decide]
  -- second replacement: the trailing fence disappears
  have h3 : replaceAll fence [] ('\n' :: (replaceAll fenceJson [] j ++ '\n' :: fence)) =
      '\n' :: (replaceAll fence [] (replaceAll fenceJson [] j) ++ ['\n']) := by
    rw [replaceAll_cons_neg [] (beginsWith_head_false _ hpF hnF),
      replaceAll_append_cons [] fence hpF hnF,
      show replaceAll fence [] fence = [] from by decide]
  -- both sides reduce to the same core
  obtain ⟨a, b, hwa, hwb, hdecomp⟩ := strip_decomposition j
  have h5 : replaceAll fenceJson [] j =
      a ++ (replaceAll fenceJson [] (stripWs j) ++ b) := by
    conv_lhs => rw [hdecomp]
    rw [replaceAll_ws_left [] hpJ hwJ _ a hwa,
      replaceAll_ws_right [] hpJ hwJ _ b hwb]
  have h6 : replaceAll fence [] (a ++ (replaceAll fenceJson [] (stripWs j) ++ b)) =
      a ++ (replaceAll fence [] (replaceAll fenceJson [] (stripWs j)) ++ b) := by
    rw [replaceAll_ws_left [] hpF hwF _ a hwa,
      replaceAll_ws_right [] hpF hwF _ b hwb]
  calc clean_json_response (fencedWrap j)
      = stripWs (replaceAll fence [] (replaceAll fenceJson [] (fencedWrap j))) := by
        rw [clean_json_response, h1]
    _ = stripWs (replaceAll fence [] (replaceAll fenceJson [] (stripWs j))) := by
        rw [h2, h3, stripWs_cons_ws hwn, stripWs_append_ws hwn, h5, h6,
          stripWs_ws_left a hwa, stripWs_ws_right _ b hwb]
    _ = clean_json_response j := rfl

/-- C6: running the response validator on the markdown-fenced form
`"```json\n" + j + "\n```"` yields exactly the same validated result as
running it on the inner text `j` itself, for every inner text, every
JSON parser and every required-field check. -/
theorem validator_fenced_agreement {J : Type} (loads : List Char → Option J)
    (requiredFieldsOk : J → Bool) (j : List Char) :
    parse_and_validate loads requiredFieldsOk (fencedWrap j) =
      parse_and_validate loads requiredFieldsOk j := by
  rw [parse_and_validate, parse_and_validate, clean_json_fenced]

/-! ## Verse-formatter fallback analysis (claim C4) -/

theorem splitRuns_no_sep {p : Char → Bool} :
    ∀ s : List Char, (∀ c ∈ s, p c = false) → splitRuns p s = [s] := by
  intro s
  induction s with
  | nil => intro _; rfl
  | cons c cs ih =>
    intro h
    cases cs with
    | nil => simp [splitRuns, h c (List.mem_cons_self c [])]
    | cons c2 cs' =>
      rw [splitRuns.eq_3]
      simp only [h c (List.mem_cons_self _ _), Bool.false_eq_true, if_false]
      rw [ih fun y hy => h y (List.mem_cons_of_mem c hy)]

theorem buildFormatted_single (x : List Char) :
    buildFormatted 1 0 [x] =
      if (stripWs x).isEmpty then [] else [stripWs x] := by
  simp [buildFormatted]

theorem intercalate_single_piece (sep x : List Char) :
    List.intercalate sep [x] = x := by
  simp [List.intercalate]

theorem intercalate_two_or_more (sep a b : List Char) (t : List (List Char)) :
    List.intercalate sep (a :: b :: t) = a ++ (sep ++ List.intercalate sep (b :: t)) := by
  simp [List.intercalate, List.intersperse]

theorem stripWs_within (s : List Char) : stripWs s <:+: s := by
  have h1 : (((s.dropWhile pyWhitespace).reverse.dropWhile pyWhitespace)).reverse
      <+: s.dropWhile pyWhitespace := by
    obtain ⟨t, ht⟩ := List.dropWhile_suffix (l := (s.dropWhile pyWhitespace).reverse)
      pyWhitespace
    exact ⟨t.reverse, by rw [← List.reverse_append, ht, List.reverse_reverse]⟩
  exact h1.isInfix.trans (List.dropWhile_suffix pyWhitespace).isInfix

theorem splitWsAux_within :
    ∀ (s acc w : List Char), w ∈ splitWsAux s acc → w <:+: acc.reverse ++ s := by
  intro s
  induction s with
  | nil =>
    intro acc w hw
    rw [splitWsAux] at hw
    split at hw
    · exact absurd hw (List.not_mem_nil w)
    · rw [List.mem_singleton.mp hw, List.append_nil]
  | cons c cs ih =>
    intro acc w hw
    rw [splitWsAux] at hw
    by_cases hwc : pyWhitespace c = true
    · rw [if_pos hwc] at hw
      have htail : w ∈ splitWsAux cs [] → w <:+: acc.reverse ++ c :: cs := by
        intro hmem
        have h1 : w <:+: cs := by simpa using ih [] w hmem
        exact h1.trans (((List.suffix_cons c cs).trans
          (List.suffix_append acc.reverse (c :: cs)))).isInfix
      split at hw
      · exact htail hw
      · rcases List.mem_cons.mp hw with hw1 | hw2
        · exact hw1 ▸ ⟨[], c :: cs, by simp⟩
        · exact htail hw2
    · rw [if_neg hwc] at hw
      have h1 : w <:+: (c :: acc).reverse ++ cs := ih (c :: acc) w hw
      rw [List.reverse_cons, List.append_assoc] at h1
      exact h1

theorem splitWs_within (s w : List Char) (hw : w ∈ splitWs s) : w <:+: s := by
  simpa using splitWsAux_within s [] w hw

theorem splitWsAux_allws_nil :
    ∀ b : List Char, (∀ c ∈ b, pyWhitespace c = true) → splitWsAux b [] = [] := by
  intro b
  induction b with
  | nil => intro _; rfl
  | cons c b' ih =>
    intro h
    rw [splitWsAux, if_pos (h c (List.mem_cons_self c b'))]
    simp only [List.isEmpty_nil, if_true]
    exact ih fun y hy => h y (List.mem_cons_of_mem c hy)

theorem splitWsAux_ws_tail {b : List Char} (hb : ∀ c ∈ b, pyWhitespace c = true) :
    ∀ (x acc : List Char), splitWsAux (x ++ b) acc = splitWsAux x acc := by
  intro x
  induction x with
  | nil =>
    intro acc
    rw [List.nil_append, splitWsAux]
    cases b with
    | nil => rfl
    | cons c b' =>
      rw [splitWsAux, if_pos (hb c (List.mem_cons_self c b'))]
      have hnil : splitWsAux b' [] = [] :=
        splitWsAux_allws_nil b' fun y hy => hb y (List.mem_cons_of_mem c hy)
      split
      · next hacc => rw [hnil]
      · next hacc => rw [hnil]
  | cons c x' ih =>
    intro acc
    rw [List.cons_append, splitWsAux, splitWsAux]
    by_cases hwc : pyWhitespace c = true
    · rw [if_pos hwc, if_pos hwc]
      split
      · exact ih []
      · rw [ih []]
    · rw [if_neg hwc, if_neg hwc, ih (c :: acc)]

theorem splitWsAux_ws_head :
    ∀ a : List Char, (∀ c ∈ a, pyWhitespace c = true) →
      ∀ x, splitWsAux (a ++ x) [] = splitWsAux x [] := by
  intro a
  induction a with
  | nil => intro _ x; rfl
  | cons c a' ih =>
    intro h x
    rw [List.cons_append, splitWsAux, if_pos (h c (List.mem_cons_self c a'))]
    simp only [List.isEmpty_nil, if_true]
    exact ih (fun y hy => h y (List.mem_cons_of_mem c hy)) x

theorem splitWs_stripWs (s : List Char) : splitWs (stripWs s) = splitWs s := by
  obtain ⟨a, b, hwa, hwb, hdecomp⟩ := strip_decomposition s
  have h1 : splitWs s = splitWsAux (stripWs s ++ b) [] := by
    conv_lhs => rw [hdecomp]
    exact splitWsAux_ws_head a hwa (stripWs s ++ b)
  rw [splitWs, h1, splitWsAux_ws_tail hwb (stripWs s) []]

theorem fallbackAux_no_close :
    ∀ (ws : List (List Char)), (∀ w ∈ ws, endsTerminalPunct w = false) →
      ∀ (cur : List (List Char)) (cnt : Nat),
        fallbackAux ws cur cnt =
          if (cur ++ ws).isEmpty then []
          else [List.intercalate [' '] (cur ++ ws)] := by
  intro ws
  induction ws with
  | nil => intro _ cur cnt; rw [fallbackAux]; simp
  | cons word ws' ih =>
    intro h cur cnt
    have hw : endsTerminalPunct word = false := h word (List.mem_cons_self word ws')
    simp only [fallbackAux, hw, Bool.and_false, Bool.false_eq_true, if_false]
    rw [ih (fun y hy => h y (List.mem_cons_of_mem word hy)) (cur ++ [word])
      (cnt + word.length + 1), List.append_assoc, List.singleton_append]

theorem mem_of_getLast_eq_some :
    ∀ {w : List Char} {c : Char}, w.getLast? = some c → c ∈ w := by
  intro w
  induction w with
  | nil => intro c h; exact absurd h (by simp)
  | cons x t ih =>
    intro c h
    cases t with
    | nil =>
      simp only [List.getLast?_singleton, Option.some.injEq] at h
      exact List.mem_singleton.mpr h.symm
    | cons y t' =>
      rw [List.getLast?_cons_cons] at h
      exact List.mem_cons_of_mem x (ih h)

theorem intercalate_no_pat {pat : List Char} (hp : pat ≠ []) (hsp : ' ' ∉ pat) :
    ∀ ws : List (List Char), (∀ w ∈ ws, ¬ pat <:+: w) →
      ¬ pat <:+: List.intercalate [' '] ws := by
  intro ws
  induction ws with
  | nil =>
    intro _ hinf
    rw [show List.intercalate [' '] ([] : List (List Char)) = [] from rfl] at hinf
    exact hp (List.infix_nil.mp hinf)
  | cons w ws' ih =>
    intro h hinf
    cases ws' with
    | nil =>
      rw [intercalate_single_piece] at hinf
      exact h w (List.mem_cons_self w []) hinf
    | cons w2 t =>
      rw [intercalate_two_or_more] at hinf
      have hinf' : pat <:+: w ++ ' ' :: List.intercalate [' '] (w2 :: t) := by
        simpa using hinf
      rcases infix_append_cons w hinf' with hc | hw | hrest
      · exact hsp hc
      · exact h w (List.mem_cons_self w _) hw
      · exact ih (fun y hy => h y (List.mem_cons_of_mem w hy)) hrest

/-- C4 amended: on a 500-character single-sentence input with no
sentence-terminal punctuation (and not already containing the marker),
the formatter inserts NO marker: the fallback closes a line only when the
triggering word ends in `!`, `.` or `?`, which never happens, so the
whole input becomes one single line and the returned string is just the
input with surrounding whitespace stripped and internal whitespace runs
collapsed to single spaces — it contains no marker. -/
theorem fallback_no_marker_general (s : List Char) (hlen : s.length = 500)
    (hpunct : ∀ c ∈ s, isTerminalPunct c = false)
    (hmk : hasSub marker s = false) :
    add_rap_formatting s = List.intercalate [' '] (splitWs s) ∧
    hasSub marker (add_rap_formatting s) = false := by
  have hne : s.isEmpty = false := by
    cases s with
    | nil => simp at hlen
    | cons c cs => rfl
  have hsplit : splitRuns isTerminalPunct s = [s] := splitRuns_no_sep s hpunct
  have hres : List.intercalate [' '] (buildFormatted 1 0 [s]) = stripWs s := by
    rw [buildFormatted_single]
    by_cases hse : (stripWs s).isEmpty = true
    · rw [if_pos hse, List.isEmpty_iff.mp hse]; rfl
    · rw [if_neg hse, intercalate_single_piece]
  have hstripinf : stripWs s <:+: s := stripWs_within s
  have hresmk : hasSub marker (stripWs s) = false := hasSub_false_mono hstripinf hmk
  have hwords : ∀ w ∈ splitWs s, endsTerminalPunct w = false := by
    intro w hw
    cases hlast : w.getLast? with
    | none => simp [endsTerminalPunct, hlast]
    | some c =>
      have hcs : c ∈ s := (splitWs_within s w hw).subset (mem_of_getLast_eq_some hlast)
      simp only [endsTerminalPunct, hlast]
      exact hpunct c hcs
  have key : add_rap_formatting s =
      List.intercalate marker (fallbackAux (splitWs (stripWs s)) [] 0) := by
    rw [add_rap_formatting, if_neg (by simp [hne]), if_neg (by simp [hmk])]
    simp only [hsplit, List.length_cons, List.length_nil, Nat.zero_add]
    rw [hres, if_neg (by simp [hresmk])]
  have hsw : splitWs (stripWs s) = splitWs s := splitWs_stripWs s
  have hfall : fallbackAux (splitWs s) [] 0 =
      if (splitWs s).isEmpty then [] else [List.intercalate [' '] (splitWs s)] := by
    simpa using fallbackAux_no_close (splitWs s) hwords [] 0
  constructor
  · rw [key, hsw, hfall]
    by_cases hE : (splitWs s).isEmpty = true
    · rw [if_pos hE, List.isEmpty_iff.mp hE]; rfl
    · rw [if_neg hE, intercalate_single_piece]
  · rw [key, hsw, hfall]
    by_cases hE : (splitWs s).isEmpty = true
    · rw [if_pos hE]; decide
    · rw [if_neg hE, intercalate_single_piece]
      have hnotin : ¬ marker <:+: List.intercalate [' '] (splitWs s) := by
        apply intercalate_no_pat (by decide) (by decide)
        intro w hw hinf
        have h1 : marker <:+: s := hinf.trans (splitWs_within s w hw)
        exact absurd ((hasSub_eq_true_iff marker s).mpr h1) (by simp [hmk])
      cases hX : hasSub marker (List.intercalate [' '] (splitWs s)) with
      | false => rfl
      | true => exact absurd ((hasSub_eq_true_iff marker _).mp hX) hnotin

theorem fallback_no_marker_general_witness :
    (List.replicate 500 'a').length = 500 ∧
    (∀ c ∈ List.replicate 500 'a', isTerminalPunct c = false) ∧
    hasSub marker (List.replicate 500 'a') = false ∧
    add_rap_formatting (List.replicate 500 'a') =
      List.intercalate [' '] (splitWs (List.replicate 500 'a')) ∧
    hasSub marker (add_rap_formatting (List.replicate 500 'a')) = false := by
  have h1 : (List.replicate 500 'a').length = 500 := by simp
  have h2 : ∀ c ∈ List.replicate 500 'a', isTerminalPunct c = false := by
    intro c hc
    rw [List.eq_of_mem_replicate hc]
    rfl
  have h3 : hasSub marker (List.replicate 500 'a') = false := by decide
  have hmain := fallback_no_marker_general _ h1 h2 h3
  exact ⟨h1, h2, h3, hmain.1, hmain.2⟩

end RLIF
